import Mathlib

/-!
# Verification of the BVH core of the `raytracer` repository

Shallow embedding of `src/intervals.rs` and `src/boundingvolume.rs`.

Modelling conventions:

* Rust `f64` values are modelled as rationals (`ℚ`): the code under study
  performs only field arithmetic and order comparisons, all of which `ℚ`
  supports exactly.  The literal `1.0e-4` is rendered as `1 / 10000`.
  A dedicated model with NaN and signed infinities (`namespace FModel`)
  is used where the distinction between non-NaN and finite matters.
* Rust `[T; 3]` arrays (`dims: [Interval; 3]`, `Vec3(pub [f64; 3])`) are
  modelled by the `Triple` structure, indexed by `Fin 3` via `Triple.get`.
* The mutable slice `&mut [BoundingBox]` is modelled by explicit state
  passing: `make_coveringtree` returns, next to the built tree, the list of
  boxes the slice holds when the call returns (`std::mem::take` leaves
  `BoundingBox::default()` behind in the slice).
* `sort_unstable_by` with the total comparator
  `b1.dims[idx].size_partial_cmp(&b2.dims[idx]).unwrap()` is modelled by
  `List.mergeSort` on the same key; the order of equal keys is unspecified
  in Rust, and every theorem below is independent of how ties are broken.
* The panicking `unwrap` in `make_coveringtree` (empty slice) is modelled
  by an `Option` result.
* The exact primitive test `hittable.shape.intersect(ray)` is an external
  collaborator of this core and enters as a function parameter.
-/

namespace Raytracer

/-- One-dimensional range, from `src/intervals.rs` (`struct Interval`).
The source field `end` is a Lean keyword and is rendered here as `endp`. -/
structure Interval where
  start : ℚ
  endp : ℚ
deriving DecidableEq, Repr

namespace Interval

/-- `Interval::size`, src/intervals.rs: `end - start`. -/
def size (i : Interval) : ℚ := i.endp - i.start

/-- `Interval::midpoint`, src/intervals.rs: `0.5 * (start + end)`. -/
def midpoint (i : Interval) : ℚ := (1 / 2) * (i.start + i.endp)

end Interval

/-- `intersection`, src/intervals.rs lines 31-44: the max of the starts and
the min of the ends, `None` when `start >= end`. -/
def intersection (in1 in2 : Interval) : Option Interval :=
  let start := if in1.start < in2.start then in2.start else in1.start
  let endp := if in1.endp < in2.endp then in1.endp else in2.endp
  if start ≥ endp then none
  else some ⟨start, endp⟩

/-- `cover`, src/intervals.rs lines 46-55: the min of the starts and the max
of the ends, always defined. -/
def cover (in1 in2 : Interval) : Interval :=
  let start := if in1.start < in2.start then in1.start else in2.start
  let endp := if in1.endp < in2.endp then in2.endp else in1.endp
  ⟨start, endp⟩

/-- A fixed 3-element collection standing for Rust's `[T; 3]` arrays. -/
structure Triple (β : Type) where
  x : β
  y : β
  z : β
deriving DecidableEq, Repr

/-- Array indexing `a[i]` for the three-element arrays of the source. -/
def Triple.get {β : Type} (t : Triple β) (i : Fin 3) : β :=
  if i.val = 0 then t.x else if i.val = 1 then t.y else t.z

/-- `Ray`, src/ray.rs: origin and (not necessarily unit) direction. -/
structure Ray where
  orig : Triple ℚ
  dir : Triple ℚ
deriving DecidableEq, Repr

/-- `BoundingBox`, src/boundingvolume.rs lines 17-20: three axis intervals
plus an optional payload (`boxed: Option<Hittable>`); the payload type is a
parameter here because `Hittable` is an external collaborator. -/
structure BoundingBox (α : Type) where
  dims : Triple Interval
  boxed : Option α
deriving DecidableEq, Repr

variable {α : Type}

/-- The `interval!(0.0, 0.0)` used by `Default` and `empty`. -/
def zeroInterval : Interval := ⟨0, 0⟩

/-- `impl Default for BoundingBox`, lines 22-29: zero-size box at the
origin, no payload.  This is the value `std::mem::take` leaves behind. -/
def BoundingBox.defaultBB : BoundingBox α :=
  ⟨⟨zeroInterval, zeroInterval, zeroInterval⟩, none⟩

/-- `BoundingBox::empty`, lines 53-58 (identical content to `default`). -/
def BoundingBox.empty : BoundingBox α :=
  ⟨⟨zeroInterval, zeroInterval, zeroInterval⟩, none⟩

/-- The per-axis divisor of `check_intersection`, lines 75-80: the ray
direction component, with `1.0e-4` substituted when it is zero. -/
def divisor (ray : Ray) (i : Fin 3) : ℚ :=
  if ray.dir.get i = 0 then 1 / 10000 else ray.dir.get i

/-- One iteration of the `times` loop of `check_intersection`, lines 74-89:
the axis time interval, reversed when its size is negative. -/
def axisTimes (b : BoundingBox α) (ray : Ray) (i : Fin 3) : Interval :=
  let d := divisor ray i
  let start := ((b.dims.get i).start - ray.orig.get i) / d
  let endp := ((b.dims.get i).endp - ray.orig.get i) / d
  let t : Interval := ⟨start, endp⟩
  if t.size < 0 then ⟨endp, start⟩ else t

/-- `BoundingBox::check_intersection`, lines 70-95: intersect the three
per-axis time intervals, short-circuiting on the first empty result. -/
def BoundingBox.check_intersection (b : BoundingBox α) (ray : Ray) : Bool :=
  match intersection (axisTimes b ray 0) (axisTimes b ray 1) with
  | none => false
  | some xy => (intersection xy (axisTimes b ray 2)).isSome

/-- `BoundingBox::longest_axis`, lines 98-108 (the Rust `usize` result is
rendered as `Fin 3`). -/
def BoundingBox.longest_axis (b : BoundingBox α) : Fin 3 :=
  let s0 := (b.dims.get 0).size
  let s1 := (b.dims.get 1).size
  let s2 := (b.dims.get 2).size
  if s0 > s1 ∧ s0 > s2 then 0
  else if s1 > s2 then 1
  else 2

/-- `make_cover_of`, lines 120-129: per-axis `cover`, payload `None`. -/
def make_cover_of (bbox1 bbox2 : BoundingBox α) : BoundingBox α :=
  ⟨⟨cover (bbox1.dims.get 0) (bbox2.dims.get 0),
    cover (bbox1.dims.get 1) (bbox2.dims.get 1),
    cover (bbox1.dims.get 2) (bbox2.dims.get 2)⟩, none⟩

/-- `BoundingBox::compose_with`, lines 115-117. -/
def BoundingBox.compose_with (self other : BoundingBox α) : BoundingBox α :=
  make_cover_of self other

/-- `sort_on_index`, lines 141-150: sort by the size of the `idx`-th axis
interval (the comparator `size_partial_cmp(..).unwrap()`). -/
def sort_on_index (boxes : List (BoundingBox α)) (idx : Fin 3) :
    List (BoundingBox α) :=
  boxes.mergeSort fun b1 b2 =>
    decide ((b1.dims.get idx).size ≤ (b2.dims.get idx).size)

/-- `make_all_covering`, lines 146-149/157-160: left fold of `compose_with`
starting from the empty box. -/
def make_all_covering (boxes : List (BoundingBox α)) : BoundingBox α :=
  boxes.foldl (fun acc bbox => acc.compose_with bbox) BoundingBox.empty

/-- `split_on_covering`, lines 163-170: sort in place on the longest axis of
the total covering and split at `len / 2`. -/
def split_on_covering (boxes : List (BoundingBox α)) :
    List (BoundingBox α) × List (BoundingBox α) :=
  let halfway := boxes.length / 2
  let covering := make_all_covering boxes
  let sorted := sort_on_index boxes covering.longest_axis
  (sorted.take halfway, sorted.drop halfway)

/-- `CoveringTree`, lines 174-178: a cover box and optional owned children. -/
inductive CoveringTree (α : Type) where
  | mk (cover : BoundingBox α) (left : Option (CoveringTree α))
      (right : Option (CoveringTree α))

/-- Field accessor `-.cover`. -/
def CoveringTree.cover : CoveringTree α → BoundingBox α
  | .mk c _ _ => c

/-- Field accessor `-.left`. -/
def CoveringTree.left : CoveringTree α → Option (CoveringTree α)
  | .mk _ l _ => l

/-- Field accessor `-.right`. -/
def CoveringTree.right : CoveringTree α → Option (CoveringTree α)
  | .mk _ _ r => r

/-- `make_coveringtree`, lines 192-208.  The pair's second component is the
content of the caller's slice when the call returns; `none` models the
`first_mut().unwrap()` panic on an empty slice.  On `len == 1` the sole box
is moved out by `std::mem::take`, leaving `BoundingBox::default()`. -/
def make_coveringtree :
    List (BoundingBox α) → Option (CoveringTree α × List (BoundingBox α))
  | [] => none
  | [b] => some (⟨b, none, none⟩, [BoundingBox.defaultBB])
  | b0 :: b1 :: rest =>
    let boxes := b0 :: b1 :: rest
    let cov := make_all_covering boxes
    let halves := split_on_covering boxes
    (make_coveringtree halves.1).bind fun lp =>
      (make_coveringtree halves.2).bind fun rp =>
        some (⟨cov, some lp.1, some rp.1⟩, lp.2 ++ rp.2)
termination_by boxes => boxes.length
decreasing_by
  · simp [split_on_covering, sort_on_index, List.length_take,
      List.length_mergeSort]
    omega
  · simp [split_on_covering, sort_on_index, List.length_drop,
      List.length_mergeSort]
    omega

/-- `tree_filter`, lines 214-231: prune when the cover misses; otherwise
push `(payload, exact intersect result)` when a payload is present, then
recurse into the left child and then the right child.  The source matches
the two optional children in sequence; that control flow is laid out here
over the four constructor shapes, one defining equation per shape, with
the same push and the same left-then-right order.  The external exact test
`hittable.shape.intersect(ray)` is the parameter `intersect`. -/
def tree_filter (intersect : α → Ray → Option ℚ) :
    CoveringTree α → List (α × Option ℚ) → Ray → List (α × Option ℚ)
  | .mk cov none none, subscene, ray =>
    if cov.check_intersection ray then
      match cov.boxed with
      | some h => subscene ++ [(h, intersect h ray)]
      | none => subscene
    else subscene
  | .mk cov (some lt) none, subscene, ray =>
    if cov.check_intersection ray then
      tree_filter intersect lt
        (match cov.boxed with
          | some h => subscene ++ [(h, intersect h ray)]
          | none => subscene) ray
    else subscene
  | .mk cov none (some rt), subscene, ray =>
    if cov.check_intersection ray then
      tree_filter intersect rt
        (match cov.boxed with
          | some h => subscene ++ [(h, intersect h ray)]
          | none => subscene) ray
    else subscene
  | .mk cov (some lt) (some rt), subscene, ray =>
    if cov.check_intersection ray then
      tree_filter intersect rt
        (tree_filter intersect lt
          (match cov.boxed with
            | some h => subscene ++ [(h, intersect h ray)]
            | none => subscene) ray) ray
    else subscene

/-! ### Derived notions used to state the claims -/

/-- The leaf boxes reachable beneath a node, left to right: a childless node
contributes its own cover (the box moved into it by the builder). -/
def leafBoxes : CoveringTree α → List (BoundingBox α)
  | .mk c none none => [c]
  | .mk _ (some l) none => leafBoxes l
  | .mk _ none (some r) => leafBoxes r
  | .mk _ (some l) (some r) => leafBoxes l ++ leafBoxes r

/-- Number of nodes on a longest root-to-leaf path. -/
def depth : CoveringTree α → ℕ
  | .mk _ none none => 1
  | .mk _ (some l) none => 1 + depth l
  | .mk _ none (some r) => 1 + depth r
  | .mk _ (some l) (some r) => 1 + max (depth l) (depth r)

/-- The containment invariant of claim C3: every node with a child carries
no payload and stores exactly `make_all_covering` of the leaf boxes of its
subtree. -/
def treeInv [DecidableEq α] : CoveringTree α → Bool
  | .mk _ none none => true
  | .mk c (some l) none =>
      decide (c.boxed = none) && decide (c = make_all_covering (leafBoxes l))
        && treeInv l
  | .mk c none (some r) =>
      decide (c.boxed = none) && decide (c = make_all_covering (leafBoxes r))
        && treeInv r
  | .mk c (some l) (some r) =>
      decide (c.boxed = none)
        && decide (c = make_all_covering (leafBoxes l ++ leafBoxes r))
        && treeInv l && treeInv r

/-- Every node with at least one child carries no payload. -/
def noPayloadInternal : CoveringTree α → Bool
  | .mk _ none none => true
  | .mk c (some l) none => c.boxed.isNone && noPayloadInternal l
  | .mk c none (some r) => c.boxed.isNone && noPayloadInternal r
  | .mk c (some l) (some r) =>
      c.boxed.isNone && noPayloadInternal l && noPayloadInternal r

/-- The "recurse into the child if present" step of `tree_filter`
(lines 224-229), factored out to state claim C6. -/
def childStep (intersect : α → Ray → Option ℚ)
    (child : Option (CoveringTree α)) (acc : List (α × Option ℚ))
    (ray : Ray) : List (α × Option ℚ) :=
  match child with
  | some t => tree_filter intersect t acc ray
  | none => acc

/-- The pairs `tree_filter` pushes at one node (lines 220-223): one pair when
the cover holds a payload, pushed whatever the exact test returns. -/
def leafPush (intersect : α → Ray → Option ℚ) (b : BoundingBox α)
    (ray : Ray) : List (α × Option ℚ) :=
  match b.boxed with
  | some h => [(h, intersect h ray)]
  | none => []

/-- The ray with the same origin and the componentwise negated direction
(claim C9). -/
def negRay (ray : Ray) : Ray :=
  ⟨ray.orig, ⟨-ray.dir.x, -ray.dir.y, -ray.dir.z⟩⟩

/-- A valid box per the data model of the spec: each axis interval is
non-reversed. -/
def boxValid (b : BoundingBox α) : Prop :=
  ∀ i : Fin 3, (b.dims.get i).start ≤ (b.dims.get i).endp

instance (b : BoundingBox α) : Decidable (boxValid b) := by
  unfold boxValid; infer_instance

/-! ### A NaN-aware model of `f64` for the sort comparator (claim C10)

The `ℚ` model above cannot express NaN.  Claim C10 is about
`f64::partial_cmp` returning `None`, so the comparator of
`Interval::size_partial_cmp` (src/intervals.rs lines 26-28) is re-embedded
here over IEEE-754 values modelled exactly: a finite value is an exact
rational, and NaN and the signed infinities are explicit constructors.
The Lean names drop the `partial_` component of the source names. -/

namespace FModel

/-- An `f64` value: finite, `+inf`, `-inf`, or NaN. -/
inductive F64 where
  | val (q : ℚ)
  | inf
  | ninf
  | nan
deriving DecidableEq, Repr

/-- IEEE-754 subtraction on the modelled values: `inf - inf` and
`(-inf) - (-inf)` are NaN, and NaN propagates through every case. -/
def F64.sub : F64 → F64 → F64
  | .val a, .val b => .val (a - b)
  | .val _, .inf => .ninf
  | .val _, .ninf => .inf
  | .inf, .val _ => .inf
  | .inf, .ninf => .inf
  | .ninf, .val _ => .ninf
  | .ninf, .inf => .ninf
  | _, _ => .nan

/-- `f64::partial_cmp`: `None` exactly when an operand is NaN; otherwise the
total order with `-inf < finite < +inf` (and equal infinities equal). -/
def F64.pcmp : F64 → F64 → Option Ordering
  | .nan, _ => none
  | _, .nan => none
  | .val a, .val b => some (compare a b)
  | .val _, .inf => some .lt
  | .val _, .ninf => some .gt
  | .inf, .val _ => some .gt
  | .inf, .inf => some .eq
  | .inf, .ninf => some .gt
  | .ninf, .val _ => some .lt
  | .ninf, .inf => some .lt
  | .ninf, .ninf => some .eq

/-- Non-NaN (what claim C10 assumes of every endpoint). -/
def F64.isNum : F64 → Bool
  | .nan => false
  | _ => true

/-- `Interval` over modelled `f64` endpoints. -/
structure FInterval where
  start : F64
  endp : F64
deriving DecidableEq, Repr

/-- `Interval::size`: `end - start`. -/
def FInterval.size (i : FInterval) : F64 := i.endp.sub i.start

/-- `Interval::size_partial_cmp` (src/intervals.rs lines 26-28), the
comparator whose `unwrap` claim C10 is about. -/
def FInterval.size_pcmp (i1 i2 : FInterval) : Option Ordering :=
  i1.size.pcmp i2.size

/-- Both endpoints non-NaN. -/
def FInterval.nonNanEndpoints (i : FInterval) : Bool :=
  i.start.isNum && i.endp.isNum

/-- The interval `[+inf, +inf]`: non-NaN endpoints, NaN size. -/
def infInterval : FInterval := ⟨.inf, .inf⟩

/-- A finite unit interval. -/
def finiteUnit : FInterval := ⟨.val 0, .val 1⟩

end FModel

/-! ### Concrete inputs for witnesses and counterexamples

The payload type is instantiated at `ℕ`: the payload (`Hittable`) is opaque
to every operation studied here. -/

/-- The unit box `[0,1]^3` with no payload (first box of the repository test
`test_bbox_intersection`). -/
def unitBox : BoundingBox ℕ := ⟨⟨⟨0, 1⟩, ⟨0, 1⟩, ⟨0, 1⟩⟩, none⟩

/-- The unit box carrying payload `2`. -/
def unitBoxP2 : BoundingBox ℕ := ⟨⟨⟨0, 1⟩, ⟨0, 1⟩, ⟨0, 1⟩⟩, some 2⟩

/-- The unit box carrying payload `3`. -/
def unitBoxP3 : BoundingBox ℕ := ⟨⟨⟨0, 1⟩, ⟨0, 1⟩, ⟨0, 1⟩⟩, some 3⟩

/-- The box `[1,2]^3` with no payload (its union does not contain the
origin; counterexample input for C4). -/
def cubeOneTwo : BoundingBox ℕ := ⟨⟨⟨1, 2⟩, ⟨1, 2⟩, ⟨1, 2⟩⟩, none⟩

/-- The box `[1,2]^3` carrying payload `7` (counterexample input for C7). -/
def cubeOneTwoP7 : BoundingBox ℕ := ⟨⟨⟨1, 2⟩, ⟨1, 2⟩, ⟨1, 2⟩⟩, some 7⟩

/-- A box with axis sizes `(1,1,1)`. -/
def boxSizes111 : BoundingBox ℕ := ⟨⟨⟨0, 1⟩, ⟨0, 1⟩, ⟨0, 1⟩⟩, none⟩

/-- A box with axis sizes `(1,2,1)`. -/
def boxSizes121 : BoundingBox ℕ := ⟨⟨⟨0, 1⟩, ⟨0, 2⟩, ⟨0, 1⟩⟩, none⟩

/-- The ray of the repository test `test_bbox_intersection`:
origin `(1.5, 0.5, 0.5)`, direction `(1, 0, 0)`. -/
def testRay : Ray := ⟨⟨3/2, 1/2, 1/2⟩, ⟨1, 0, 0⟩⟩

/-- A ray that hits `unitBox` with every direction component nonzero:
origin `(-2,-2,-2)`, direction `(1,1,1)`. -/
def diagRay : Ray := ⟨⟨-2, -2, -2⟩, ⟨1, 1, 1⟩⟩

/-- A ray that misses `unitBox`: origin `(5,5,5)`, direction `(1,0,0)`. -/
def missRay : Ray := ⟨⟨5, 5, 5⟩, ⟨1, 0, 0⟩⟩

/-- A trivial stand-in for the external exact-intersection capability. -/
def noHit : ℕ → Ray → Option ℚ := fun _ _ => none

/-! ## Basic lemmas: indexing, interval algebra, the slab test -/

@[simp] theorem Triple.get_zero {β : Type} (a b c : β) :
    (Triple.mk a b c).get 0 = a := rfl

@[simp] theorem Triple.get_one {β : Type} (a b c : β) :
    (Triple.mk a b c).get 1 = b := rfl

@[simp] theorem Triple.get_two {β : Type} (a b c : β) :
    (Triple.mk a b c).get 2 = c := rfl

/-- `cover` in min/max form. -/
theorem cover_eq (in1 in2 : Interval) :
    cover in1 in2 = ⟨min in1.start in2.start, max in1.endp in2.endp⟩ := by
  show Interval.mk (if in1.start < in2.start then in1.start else in2.start)
      (if in1.endp < in2.endp then in2.endp else in1.endp) = _
  rw [Interval.mk.injEq]
  constructor
  · split_ifs with h
    · exact (min_eq_left h.le).symm
    · exact (min_eq_right (not_lt.mp h)).symm
  · split_ifs with h
    · exact (max_eq_right h.le).symm
    · exact (max_eq_left (not_lt.mp h)).symm

/-- `intersection` in min/max form. -/
theorem intersection_eq (in1 in2 : Interval) :
    intersection in1 in2 =
      if min in1.endp in2.endp ≤ max in1.start in2.start then none
      else some ⟨max in1.start in2.start, min in1.endp in2.endp⟩ := by
  unfold intersection
  have hs : (if in1.start < in2.start then in2.start else in1.start)
      = max in1.start in2.start := by
    split_ifs with h
    · exact (max_eq_right h.le).symm
    · exact (max_eq_left (not_lt.mp h)).symm
  have he : (if in1.endp < in2.endp then in1.endp else in2.endp)
      = min in1.endp in2.endp := by
    split_ifs with h
    · exact (min_eq_left h.le).symm
    · exact (min_eq_right (not_lt.mp h)).symm
  rw [hs, he]

/-- The divisor is never zero: the source substitutes `1.0e-4` exactly when
the direction component is zero. -/
theorem divisor_ne_zero (ray : Ray) (i : Fin 3) : divisor ray i ≠ 0 := by
  unfold divisor
  split_ifs with h
  · norm_num
  · exact h

/-- The normalized per-axis time interval in min/max form. -/
theorem axisTimes_eq (b : BoundingBox α) (ray : Ray) (i : Fin 3) :
    axisTimes b ray i =
      ⟨min (((b.dims.get i).start - ray.orig.get i) / divisor ray i)
           (((b.dims.get i).endp - ray.orig.get i) / divisor ray i),
       max (((b.dims.get i).start - ray.orig.get i) / divisor ray i)
           (((b.dims.get i).endp - ray.orig.get i) / divisor ray i)⟩ := by
  simp only [axisTimes, Interval.size]
  set ts := ((b.dims.get i).start - ray.orig.get i) / divisor ray i
  set te := ((b.dims.get i).endp - ray.orig.get i) / divisor ray i
  split_ifs with h
  · have hlt : te < ts := by simpa using sub_neg.mp h
    rw [min_eq_right hlt.le, max_eq_left hlt.le]
  · have hle : ts ≤ te := by simpa using sub_nonneg.mp (not_lt.mp h)
    rw [min_eq_left hle, max_eq_right hle]

/-- The slab test holds exactly when the largest normalized start time is
strictly below the smallest normalized end time. -/
theorem check_intersection_iff (b : BoundingBox α) (ray : Ray) :
    b.check_intersection ray = true ↔
      max (max (axisTimes b ray 0).start (axisTimes b ray 1).start)
          (axisTimes b ray 2).start <
      min (min (axisTimes b ray 0).endp (axisTimes b ray 1).endp)
          (axisTimes b ray 2).endp := by
  unfold BoundingBox.check_intersection
  set t0 := axisTimes b ray 0
  set t1 := axisTimes b ray 1
  set t2 := axisTimes b ray 2
  rw [intersection_eq t0 t1]
  split_ifs with h1
  · simp only [Bool.false_eq_true, false_iff, not_lt]
    calc min (min t0.endp t1.endp) t2.endp ≤ min t0.endp t1.endp :=
          min_le_left _ _
      _ ≤ max t0.start t1.start := h1
      _ ≤ max (max t0.start t1.start) t2.start := le_max_left _ _
  · show (intersection (Interval.mk (max t0.start t1.start) (min t0.endp t1.endp)) t2).isSome
        = true ↔ _
    rw [intersection_eq]
    split_ifs with h2
    · simp only [Option.isSome_none, Bool.false_eq_true, false_iff, not_lt]
      simpa using h2
    · simp only [Option.isSome_some, true_iff]
      simpa using not_le.mp h2

theorem axisTimes_start (b : BoundingBox α) (ray : Ray) (i : Fin 3) :
    (axisTimes b ray i).start =
      min (((b.dims.get i).start - ray.orig.get i) / divisor ray i)
          (((b.dims.get i).endp - ray.orig.get i) / divisor ray i) := by
  rw [axisTimes_eq]

theorem axisTimes_endp (b : BoundingBox α) (ray : Ray) (i : Fin 3) :
    (axisTimes b ray i).endp =
      max (((b.dims.get i).start - ray.orig.get i) / divisor ray i)
          (((b.dims.get i).endp - ray.orig.get i) / divisor ray i) := by
  rw [axisTimes_eq]

/-- For a valid axis interval, a time lies strictly inside the normalized
time interval exactly when the corresponding position (advanced along the
substituted divisor) lies strictly inside the axis interval. -/
theorem axisTimes_mem_iff (b : BoundingBox α) (ray : Ray) (i : Fin 3) (t : ℚ)
    (hv : (b.dims.get i).start ≤ (b.dims.get i).endp) :
    ((axisTimes b ray i).start < t ∧ t < (axisTimes b ray i).endp) ↔
      ((b.dims.get i).start < ray.orig.get i + t * divisor ray i ∧
       ray.orig.get i + t * divisor ray i < (b.dims.get i).endp) := by
  rw [axisTimes_start, axisTimes_endp]
  set d := divisor ray i with hd
  set o := ray.orig.get i
  set s := (b.dims.get i).start
  set e := (b.dims.get i).endp
  rcases lt_or_gt_of_ne (divisor_ne_zero ray i) with hneg | hpos
  · have hte : (e - o) / d ≤ (s - o) / d :=
      (div_le_div_right_of_neg hneg).mpr (by linarith)
    rw [min_eq_right hte, max_eq_left hte, div_lt_iff_of_neg hneg,
      lt_div_iff_of_neg hneg]
    constructor <;> intro h <;> exact ⟨by linarith [h.1, h.2], by linarith [h.1, h.2]⟩
  · have hts : (s - o) / d ≤ (e - o) / d :=
      div_le_div_of_nonneg_right (by linarith) hpos.le
    rw [min_eq_left hts, max_eq_right hts, div_lt_iff₀ hpos, lt_div_iff₀ hpos]
    constructor <;> intro h <;> exact ⟨by linarith [h.1, h.2], by linarith [h.1, h.2]⟩

/-- A box whose axis intervals contain those of a valid box passes the slab
test whenever the contained box does. -/
theorem check_intersection_mono (A B : BoundingBox α) (ray : Ray)
    (hBv : boxValid B)
    (hsub : ∀ i : Fin 3, (A.dims.get i).start ≤ (B.dims.get i).start ∧
        (B.dims.get i).endp ≤ (A.dims.get i).endp)
    (hB : B.check_intersection ray = true) :
    A.check_intersection ray = true := by
  rw [check_intersection_iff] at hB ⊢
  have key : ∀ i : Fin 3,
      (axisTimes A ray i).start ≤ (axisTimes B ray i).start ∧
      (axisTimes B ray i).endp ≤ (axisTimes A ray i).endp := by
    intro i
    rw [axisTimes_start, axisTimes_start, axisTimes_endp, axisTimes_endp]
    set d := divisor ray i with hd
    set o := ray.orig.get i
    have hAs := (hsub i).1
    have hAe := (hsub i).2
    have hBv' := hBv i
    rcases lt_or_gt_of_ne (divisor_ne_zero ray i) with hneg | hpos
    · have h1 : ((B.dims.get i).start - o) / d ≤ ((A.dims.get i).start - o) / d :=
        (div_le_div_right_of_neg hneg).mpr (by linarith)
      have h2 : ((A.dims.get i).endp - o) / d ≤ ((B.dims.get i).endp - o) / d :=
        (div_le_div_right_of_neg hneg).mpr (by linarith)
      have h3 : ((B.dims.get i).endp - o) / d ≤ ((B.dims.get i).start - o) / d :=
        (div_le_div_right_of_neg hneg).mpr (by linarith)
      constructor
      · exact le_min (le_trans (le_trans (min_le_right _ _) h2) h3)
          (le_trans (min_le_right _ _) h2)
      · exact max_le (le_trans h1 (le_max_left _ _))
          (le_trans (le_trans h3 h1) (le_max_left _ _))
    · have h1 : ((A.dims.get i).start - o) / d ≤ ((B.dims.get i).start - o) / d := by
        gcongr
      have h2 : ((B.dims.get i).endp - o) / d ≤ ((A.dims.get i).endp - o) / d := by
        gcongr
      have h3 : ((B.dims.get i).start - o) / d ≤ ((B.dims.get i).endp - o) / d := by
        gcongr
      constructor
      · exact le_min (le_trans (min_le_left _ _) h1)
          (le_trans (le_trans (min_le_left _ _) h1) h3)
      · exact max_le (le_trans (le_trans h3 h2) (le_max_right _ _))
          (le_trans h2 (le_max_right _ _))
  have hmax : max (max (axisTimes A ray 0).start (axisTimes A ray 1).start)
      (axisTimes A ray 2).start ≤
      max (max (axisTimes B ray 0).start (axisTimes B ray 1).start)
      (axisTimes B ray 2).start :=
    max_le_max (max_le_max (key 0).1 (key 1).1) (key 2).1
  have hmin : min (min (axisTimes B ray 0).endp (axisTimes B ray 1).endp)
      (axisTimes B ray 2).endp ≤
      min (min (axisTimes A ray 0).endp (axisTimes A ray 1).endp)
      (axisTimes A ray 2).endp :=
    min_le_min (min_le_min (key 0).2 (key 1).2) (key 2).2
  linarith

theorem negRay_orig (ray : Ray) : (negRay ray).orig = ray.orig := rfl

theorem negRay_dir_get (ray : Ray) (i : Fin 3) :
    (negRay ray).dir.get i = -(ray.dir.get i) := by
  fin_cases i <;> rfl

/-- With a nonzero direction component, negating the ray negates the
divisor. -/
theorem divisor_negRay (ray : Ray) (i : Fin 3) (h : ray.dir.get i ≠ 0) :
    divisor (negRay ray) i = -(divisor ray i) := by
  unfold divisor
  rw [negRay_dir_get]
  simp [neg_eq_zero, h]

/-- With a nonzero direction component, negating the ray reflects the
normalized per-axis time interval about zero. -/
theorem axisTimes_negRay (b : BoundingBox α) (ray : Ray) (i : Fin 3)
    (h : ray.dir.get i ≠ 0) :
    axisTimes b (negRay ray) i =
      ⟨-(axisTimes b ray i).endp, -(axisTimes b ray i).start⟩ := by
  rw [axisTimes_eq b (negRay ray) i, divisor_negRay ray i h, negRay_orig,
    div_neg, div_neg, min_neg_neg, max_neg_neg, axisTimes_start, axisTimes_endp]

/-! ## Lemmas on the covering fold -/

theorem make_cover_of_boxed (b1 b2 : BoundingBox α) :
    (make_cover_of b1 b2).boxed = none := rfl

theorem make_cover_of_get (b1 b2 : BoundingBox α) (i : Fin 3) :
    (make_cover_of b1 b2).dims.get i = cover (b1.dims.get i) (b2.dims.get i) := by
  fin_cases i <;> rfl

theorem empty_get (i : Fin 3) :
    ((BoundingBox.empty : BoundingBox α).dims.get i) = zeroInterval := by
  fin_cases i <;> rfl

/-- The covering fold, per axis: componentwise min/max folds from the
accumulator's own endpoints. -/
theorem foldl_compose_get (boxes : List (BoundingBox α)) (acc : BoundingBox α)
    (i : Fin 3) :
    (boxes.foldl (fun a b => a.compose_with b) acc).dims.get i =
      ⟨boxes.foldl (fun s b => min s ((b.dims.get i).start))
          ((acc.dims.get i).start),
       boxes.foldl (fun s b => max s ((b.dims.get i).endp))
          ((acc.dims.get i).endp)⟩ := by
  induction boxes generalizing acc with
  | nil => simp [List.foldl]
  | cons c tl ih =>
    simp only [List.foldl_cons]
    rw [ih]
    simp only [BoundingBox.compose_with, make_cover_of_get, cover_eq]

theorem make_all_covering_start (boxes : List (BoundingBox α)) (i : Fin 3) :
    ((make_all_covering boxes).dims.get i).start =
      boxes.foldl (fun s b => min s ((b.dims.get i).start)) 0 := by
  unfold make_all_covering
  rw [foldl_compose_get]
  simp [empty_get, zeroInterval]

theorem make_all_covering_endp (boxes : List (BoundingBox α)) (i : Fin 3) :
    ((make_all_covering boxes).dims.get i).endp =
      boxes.foldl (fun s b => max s ((b.dims.get i).endp)) 0 := by
  unfold make_all_covering
  rw [foldl_compose_get]
  simp [empty_get, zeroInterval]

theorem make_all_covering_boxed (boxes : List (BoundingBox α)) :
    (make_all_covering boxes).boxed = none := by
  have step : ∀ (l : List (BoundingBox α)) (acc : BoundingBox α),
      acc.boxed = none →
      (l.foldl (fun a b => a.compose_with b) acc).boxed = none := by
    intro l
    induction l with
    | nil => exact fun acc h => h
    | cons d tl ih => exact fun acc _ => ih (acc.compose_with d) rfl
  exact step boxes _ rfl

theorem foldl_min_key_le_seed {β : Type} (f : β → ℚ) (l : List β) (a : ℚ) :
    l.foldl (fun s x => min s (f x)) a ≤ a := by
  induction l generalizing a with
  | nil => exact le_refl a
  | cons c tl ih => exact le_trans (ih _) (min_le_left _ _)

theorem foldl_min_key_le_mem {β : Type} (f : β → ℚ) (l : List β) (a : ℚ)
    (b : β) (hb : b ∈ l) : l.foldl (fun s x => min s (f x)) a ≤ f b := by
  induction l generalizing a with
  | nil => cases hb
  | cons c tl ih =>
    rcases List.mem_cons.mp hb with rfl | hb2
    · exact le_trans (foldl_min_key_le_seed f tl _) (min_le_right _ _)
    · exact ih _ hb2

theorem le_foldl_max_key_seed {β : Type} (f : β → ℚ) (l : List β) (a : ℚ) :
    a ≤ l.foldl (fun s x => max s (f x)) a := by
  induction l generalizing a with
  | nil => exact le_refl a
  | cons c tl ih => exact le_trans (le_max_left _ _) (ih _)

theorem le_foldl_max_key_mem {β : Type} (f : β → ℚ) (l : List β) (a : ℚ)
    (b : β) (hb : b ∈ l) : f b ≤ l.foldl (fun s x => max s (f x)) a := by
  induction l generalizing a with
  | nil => cases hb
  | cons c tl ih =>
    rcases List.mem_cons.mp hb with rfl | hb2
    · exact le_trans (le_max_right _ _) (le_foldl_max_key_seed f tl _)
    · exact ih _ hb2

/-- The total covering contains every folded box, axis by axis. -/
theorem make_all_covering_contains (boxes : List (BoundingBox α))
    (b : BoundingBox α) (hb : b ∈ boxes) (i : Fin 3) :
    ((make_all_covering boxes).dims.get i).start ≤ (b.dims.get i).start ∧
    (b.dims.get i).endp ≤ ((make_all_covering boxes).dims.get i).endp := by
  rw [make_all_covering_start, make_all_covering_endp]
  exact ⟨foldl_min_key_le_mem _ _ _ _ hb, le_foldl_max_key_mem _ _ _ _ hb⟩

/-- The covering fold always yields valid (non-reversed) axis intervals:
its start is at most the origin seed `0` and its end at least `0`. -/
theorem make_all_covering_valid (boxes : List (BoundingBox α)) :
    boxValid (make_all_covering boxes) := by
  intro i
  rw [make_all_covering_start, make_all_covering_endp]
  exact le_trans (foldl_min_key_le_seed _ _ _) (le_foldl_max_key_seed _ _ _)

theorem cover_right_comm (a b c : Interval) :
    cover (cover a b) c = cover (cover a c) b := by
  simp only [cover_eq]
  rw [Interval.mk.injEq]
  refine ⟨min_right_comm _ _ _, ?_⟩
  rw [max_assoc, max_comm b.endp c.endp, ← max_assoc]

theorem compose_with_right_comm (a x y : BoundingBox α) :
    (a.compose_with x).compose_with y = (a.compose_with y).compose_with x := by
  simp only [BoundingBox.compose_with]
  have h : ∀ i : Fin 3, (make_cover_of (make_cover_of a x) y).dims.get i =
      (make_cover_of (make_cover_of a y) x).dims.get i := by
    intro i
    rw [make_cover_of_get, make_cover_of_get, make_cover_of_get,
      make_cover_of_get, cover_right_comm]
  have h0 := h 0
  have h1 := h 1
  have h2 := h 2
  simp only [make_cover_of_get] at h0 h1 h2
  simp only [make_cover_of, Triple.get_zero, Triple.get_one, Triple.get_two]
    at h0 h1 h2 ⊢
  rw [h0, h1, h2]

/-- The covering fold is invariant under permutation of the boxes. -/
theorem make_all_covering_perm {boxes1 boxes2 : List (BoundingBox α)}
    (h : boxes1.Perm boxes2) :
    make_all_covering boxes1 = make_all_covering boxes2 := by
  unfold make_all_covering
  haveI : RightCommutative (fun (a b : BoundingBox α) => a.compose_with b) :=
    ⟨fun a x y => compose_with_right_comm a x y⟩
  exact h.foldl_eq _

/-! ## Lemmas on the built tree -/

theorem leafBoxes_ne_nil (t : CoveringTree α) : leafBoxes t ≠ [] := by
  induction t using leafBoxes.induct <;> simp_all [leafBoxes]

/-- Full specification of the builder: on a non-empty slice it succeeds, its
leaves are a permutation of the input slice, the slice is left holding
default boxes, the containment invariant holds, and the depth is
logarithmic.  This is the shared backbone of claims C2, C3, C5 and C7. -/
theorem make_coveringtree_spec [DecidableEq α] :
    ∀ (boxes : List (BoundingBox α)), boxes ≠ [] →
    ∃ t rest, make_coveringtree boxes = some (t, rest) ∧
      (leafBoxes t).Perm boxes ∧
      rest = List.replicate boxes.length BoundingBox.defaultBB ∧
      treeInv t = true ∧
      depth t ≤ Nat.clog 2 boxes.length + 1 := by
  intro boxes
  induction boxes using make_coveringtree.induct with
  | case1 => exact fun h => absurd rfl h
  | case2 b =>
    intro _
    refine ⟨⟨b, none, none⟩, [BoundingBox.defaultBB],
      by simp [make_coveringtree], ?_, ?_, ?_, ?_⟩
    · simp [leafBoxes]
    · simp
    · simp [treeInv]
    · simp [depth, Nat.clog_one_right]
  | case3 b0 b1 tl lboxes lhalves ih1 ih2 =>
    intro _
    have h1len : (split_on_covering (b0 :: b1 :: tl)).1.length
        = (tl.length + 2) / 2 := by
      simp only [split_on_covering, sort_on_index, List.length_take,
        List.length_mergeSort, List.length_cons]
      omega
    have h2len : (split_on_covering (b0 :: b1 :: tl)).2.length
        = (tl.length + 2) - (tl.length + 2) / 2 := by
      simp only [split_on_covering, sort_on_index, List.length_drop,
        List.length_mergeSort, List.length_cons]
    have ht1 : (split_on_covering (b0 :: b1 :: tl)).1 ≠ [] :=
      List.ne_nil_of_length_pos (by omega)
    have ht2 : (split_on_covering (b0 :: b1 :: tl)).2 ≠ [] :=
      List.ne_nil_of_length_pos (by omega)
    obtain ⟨lt, lrest, hL, hLperm, hLrest, hLinv, hLdep⟩ := ih1 ht1
    obtain ⟨rt, rrest, hR, hRperm, hRrest, hRinv, hRdep⟩ := ih2 ht2
    have hsortperm : (sort_on_index (b0 :: b1 :: tl)
        (make_all_covering (b0 :: b1 :: tl)).longest_axis).Perm
        (b0 :: b1 :: tl) := by
      unfold sort_on_index
      exact List.mergeSort_perm _ _
    have hsplit : (split_on_covering (b0 :: b1 :: tl)).1
        ++ (split_on_covering (b0 :: b1 :: tl)).2
        = sort_on_index (b0 :: b1 :: tl)
            (make_all_covering (b0 :: b1 :: tl)).longest_axis := by
      simp only [split_on_covering]
      exact List.take_append_drop _ _
    have hperm : (leafBoxes lt ++ leafBoxes rt).Perm (b0 :: b1 :: tl) :=
      (hLperm.append hRperm).trans (hsplit ▸ hsortperm)
    have heq : make_coveringtree (b0 :: b1 :: tl) =
        some (⟨make_all_covering (b0 :: b1 :: tl), some lt, some rt⟩,
          lrest ++ rrest) := by
      simp only [make_coveringtree, hL, hR]
      rfl
    refine ⟨⟨make_all_covering (b0 :: b1 :: tl), some lt, some rt⟩,
      lrest ++ rrest, heq, ?_, ?_, ?_, ?_⟩
    · simpa [leafBoxes] using hperm
    · rw [hLrest, hRrest, h1len, h2len, ← List.replicate_add]
      congr 1
      simp only [List.length_cons]
      omega
    · simp only [treeInv, Bool.and_eq_true, decide_eq_true_eq]
      exact ⟨⟨⟨make_all_covering_boxed _,
        (make_all_covering_perm hperm).symm⟩, hLinv⟩, hRinv⟩
    · simp only [depth, List.length_cons]
      rw [show tl.length + 1 + 1 = tl.length + 2 from by omega]
      rw [h1len] at hLdep
      rw [h2len] at hRdep
      have hc : Nat.clog 2 (tl.length + 2)
          = Nat.clog 2 ((tl.length + 2 + 2 - 1) / 2) + 1 :=
        Nat.clog_of_two_le (by norm_num) (by omega)
      have hm : Nat.clog 2 ((tl.length + 2) / 2)
          ≤ Nat.clog 2 ((tl.length + 2 + 2 - 1) / 2) :=
        Nat.clog_mono_right _ (by omega)
      have hr : (tl.length + 2) - (tl.length + 2) / 2
          = (tl.length + 2 + 2 - 1) / 2 := by omega
      rw [hr] at hRdep
      have hmax : max (depth lt) (depth rt)
          ≤ Nat.clog 2 ((tl.length + 2 + 2 - 1) / 2) + 1 :=
        max_le (le_trans hLdep (by omega)) hRdep
      omega

/-- When every leaf box beneath a node of an invariant-satisfying tree is
valid and hit by the ray, the traversal prunes nothing and appends exactly
one pair per payload-carrying leaf, in traversal order. -/
theorem tree_filter_all_hit [DecidableEq α] (intersect : α → Ray → Option ℚ)
    (ray : Ray) :
    ∀ (t : CoveringTree α), treeInv t = true →
    (∀ b ∈ leafBoxes t, boxValid b) →
    (∀ b ∈ leafBoxes t, b.check_intersection ray = true) →
    ∀ acc, tree_filter intersect t acc ray =
      acc ++ (leafBoxes t).filterMap
        (fun b => b.boxed.map fun h => (h, intersect h ray)) := by
  intro t
  induction t using leafBoxes.induct with
  | case1 c =>
    intro _ hval hhit acc
    have hc : c.check_intersection ray = true := hhit c (by simp [leafBoxes])
    simp only [tree_filter, hc, if_true, leafBoxes]
    cases hb : c.boxed with
    | none => simp [hb]
    | some h => simp [hb]
  | case2 c l ihl =>
    intro hinv hval hhit acc
    simp only [treeInv, Bool.and_eq_true, decide_eq_true_eq] at hinv
    obtain ⟨⟨hbn, hcov⟩, hinvl⟩ := hinv
    have hmem : ∀ b ∈ leafBoxes l, b ∈ leafBoxes (CoveringTree.mk c (some l) none) := by
      intro b hb
      simpa [leafBoxes] using hb
    obtain ⟨b0, hb0⟩ := List.exists_mem_of_ne_nil (leafBoxes l) (leafBoxes_ne_nil l)
    have hc : c.check_intersection ray = true := by
      refine check_intersection_mono c b0 ray (hval b0 (hmem b0 hb0)) ?_
        (hhit b0 (hmem b0 hb0))
      intro i
      rw [hcov]
      exact make_all_covering_contains _ b0 hb0 i
    simp only [tree_filter, hc, if_true, hbn]
    rw [ihl hinvl (fun b hb => hval b (hmem b hb))
      (fun b hb => hhit b (hmem b hb)) acc]
    simp [leafBoxes]
  | case3 c r ihr =>
    intro hinv hval hhit acc
    simp only [treeInv, Bool.and_eq_true, decide_eq_true_eq] at hinv
    obtain ⟨⟨hbn, hcov⟩, hinvr⟩ := hinv
    have hmem : ∀ b ∈ leafBoxes r, b ∈ leafBoxes (CoveringTree.mk c none (some r)) := by
      intro b hb
      simpa [leafBoxes] using hb
    obtain ⟨b0, hb0⟩ := List.exists_mem_of_ne_nil (leafBoxes r) (leafBoxes_ne_nil r)
    have hc : c.check_intersection ray = true := by
      refine check_intersection_mono c b0 ray (hval b0 (hmem b0 hb0)) ?_
        (hhit b0 (hmem b0 hb0))
      intro i
      rw [hcov]
      exact make_all_covering_contains _ b0 hb0 i
    simp only [tree_filter, hc, if_true, hbn]
    rw [ihr hinvr (fun b hb => hval b (hmem b hb))
      (fun b hb => hhit b (hmem b hb)) acc]
    simp [leafBoxes]
  | case4 c l r ihl ihr =>
    intro hinv hval hhit acc
    simp only [treeInv, Bool.and_eq_true, decide_eq_true_eq] at hinv
    obtain ⟨⟨⟨hbn, hcov⟩, hinvl⟩, hinvr⟩ := hinv
    have hmeml : ∀ b ∈ leafBoxes l,
        b ∈ leafBoxes (CoveringTree.mk c (some l) (some r)) := by
      intro b hb
      simp [leafBoxes]
      exact Or.inl hb
    have hmemr : ∀ b ∈ leafBoxes r,
        b ∈ leafBoxes (CoveringTree.mk c (some l) (some r)) := by
      intro b hb
      simp [leafBoxes]
      exact Or.inr hb
    obtain ⟨b0, hb0⟩ := List.exists_mem_of_ne_nil (leafBoxes l) (leafBoxes_ne_nil l)
    have hc : c.check_intersection ray = true := by
      refine check_intersection_mono c b0 ray (hval b0 (hmeml b0 hb0)) ?_
        (hhit b0 (hmeml b0 hb0))
      intro i
      rw [hcov]
      exact make_all_covering_contains _ b0 (List.mem_append_left _ hb0) i
    simp only [tree_filter, hc, if_true, hbn]
    rw [ihl hinvl (fun b hb => hval b (hmeml b hb))
      (fun b hb => hhit b (hmeml b hb)) acc]
    rw [ihr hinvr (fun b hb => hval b (hmemr b hb))
      (fun b hb => hhit b (hmemr b hb))]
    simp [leafBoxes, List.filterMap_append]

/-- The containment invariant implies that internal nodes carry no
payload. -/
theorem treeInv_noPayloadInternal [DecidableEq α] (t : CoveringTree α)
    (h : treeInv t = true) : noPayloadInternal t = true := by
  induction t using noPayloadInternal.induct with
  | case1 c => simp [noPayloadInternal]
  | case2 c l ihl =>
    simp only [treeInv, Bool.and_eq_true, decide_eq_true_eq] at h
    simp [noPayloadInternal, h.1.1, ihl h.2]
  | case3 c r ihr =>
    simp only [treeInv, Bool.and_eq_true, decide_eq_true_eq] at h
    simp [noPayloadInternal, h.1.1, ihr h.2]
  | case4 c l r ihl ihr =>
    simp only [treeInv, Bool.and_eq_true, decide_eq_true_eq] at h
    simp [noPayloadInternal, h.1.1.1, ihl h.1.2, ihr h.2]

/-- Every pair appended by `filterMap` over payload-carrying boxes counts
one box. -/
theorem filterMap_length_of_isSome {β γ : Type} (g : β → Option γ)
    (l : List β) (h : ∀ b ∈ l, (g b).isSome = true) :
    (l.filterMap g).length = l.length := by
  induction l with
  | nil => rfl
  | cons c tl ih =>
    cases hg : g c with
    | none => exact absurd (hg ▸ h c (by simp)) (by simp)
    | some v =>
      simp only [List.filterMap_cons, hg, List.length_cons]
      rw [ih (fun b hb => h b (by simp [hb]))]

theorem map_fst_filterMap_push (intersect : α → Ray → Option ℚ) (ray : Ray)
    (l : List (BoundingBox α)) :
    ((l.filterMap fun b => b.boxed.map fun h => (h, intersect h ray)).map
        Prod.fst) = l.filterMap fun b => b.boxed := by
  induction l with
  | nil => rfl
  | cons c tl ih =>
    cases hb : c.boxed <;> simp [List.filterMap_cons, hb, ih]

/-! ## The claims -/

/-- C1: for every bounding box (valid per the data model: non-reversed axis
intervals) and every ray, `check_intersection` returns `true` iff there
exists a single scalar `t` such that the position advanced by `t` times the
per-axis divisor (the direction component, with the fixed epsilon `1.0e-4`
substituted for a zero component) lies inside all three of the box's axis
intervals simultaneously.  "Inside" is the strict interior, matching the
spec's policy that boundary touching does not count as intersecting. -/
theorem spec_c1 {α : Type} (b : BoundingBox α) (ray : Ray) (hv : boxValid b) :
    b.check_intersection ray = true ↔
      ∃ t : ℚ, ∀ i : Fin 3,
        (b.dims.get i).start < ray.orig.get i + t * divisor ray i ∧
        ray.orig.get i + t * divisor ray i < (b.dims.get i).endp := by
  rw [check_intersection_iff]
  constructor
  · intro hlt
    refine ⟨(max (max (axisTimes b ray 0).start (axisTimes b ray 1).start)
        (axisTimes b ray 2).start
      + min (min (axisTimes b ray 0).endp (axisTimes b ray 1).endp)
        (axisTimes b ray 2).endp) / 2, fun i => ?_⟩
    rw [← axisTimes_mem_iff b ray i _ (hv i)]
    have hs : (axisTimes b ray i).start ≤
        max (max (axisTimes b ray 0).start (axisTimes b ray 1).start)
          (axisTimes b ray 2).start := by
      fin_cases i
      · exact le_max_of_le_left (le_max_left _ _)
      · exact le_max_of_le_left (le_max_right _ _)
      · exact le_max_right _ _
    have he : min (min (axisTimes b ray 0).endp (axisTimes b ray 1).endp)
          (axisTimes b ray 2).endp ≤ (axisTimes b ray i).endp := by
      fin_cases i
      · exact min_le_of_left_le (min_le_left _ _)
      · exact min_le_of_left_le (min_le_right _ _)
      · exact min_le_right _ _
    exact ⟨by linarith, by linarith⟩
  · rintro ⟨t, ht⟩
    have h0 := (axisTimes_mem_iff b ray 0 t (hv 0)).mpr (ht 0)
    have h1 := (axisTimes_mem_iff b ray 1 t (hv 1)).mpr (ht 1)
    have h2 := (axisTimes_mem_iff b ray 2 t (hv 2)).mpr (ht 2)
    have hM := max_lt (max_lt h0.1 h1.1) h2.1
    have hm := lt_min (lt_min h0.2 h1.2) h2.2
    linarith

/-- C1 witness: the theorem applied to the unit box and the ray of the
repository test `test_bbox_intersection`. -/
theorem spec_c1_witness :
    unitBox.check_intersection testRay = true ↔
      ∃ t : ℚ, ∀ i : Fin 3,
        (unitBox.dims.get i).start < testRay.orig.get i + t * divisor testRay i ∧
        testRay.orig.get i + t * divisor testRay i < (unitBox.dims.get i).endp :=
  spec_c1 unitBox testRay (by decide)

/-- C2: building from a non-empty list of valid leaf boxes, each carrying a
payload, and traversing with a ray whose slab test passes on every leaf box
reports exactly N candidate pairs: the output has one entry per input box
and the multiset of reported payloads is exactly the multiset of input
payloads, so no primitive is dropped and none is duplicated. -/
theorem spec_c2 {α : Type} [DecidableEq α] (intersect : α → Ray → Option ℚ)
    (ray : Ray) (boxes : List (BoundingBox α)) (hne : boxes ≠ [])
    (hval : ∀ b ∈ boxes, boxValid b)
    (hpay : ∀ b ∈ boxes, b.boxed.isSome = true)
    (hhit : ∀ b ∈ boxes, b.check_intersection ray = true)
    (t : CoveringTree α) (rest : List (BoundingBox α))
    (hmk : make_coveringtree boxes = some (t, rest)) :
    (tree_filter intersect t [] ray).length = boxes.length ∧
    ((tree_filter intersect t [] ray).map Prod.fst).Perm
      (boxes.filterMap fun b => b.boxed) := by
  obtain ⟨t2, rest2, heq, hperm, -, hinv, -⟩ := make_coveringtree_spec boxes hne
  rw [hmk] at heq
  obtain ⟨ht2, hr2⟩ := Prod.mk.injEq t rest t2 rest2 |>.mp (Option.some.inj heq)
  subst ht2
  have hval2 : ∀ b ∈ leafBoxes t, boxValid b :=
    fun b hb => hval b (hperm.mem_iff.mp hb)
  have hhit2 : ∀ b ∈ leafBoxes t, b.check_intersection ray = true :=
    fun b hb => hhit b (hperm.mem_iff.mp hb)
  rw [tree_filter_all_hit intersect ray t hinv hval2 hhit2 []]
  simp only [List.nil_append]
  constructor
  · rw [filterMap_length_of_isSome]
    · exact hperm.length_eq
    · intro b hb
      rcases Option.isSome_iff_exists.mp
        (hpay b (hperm.mem_iff.mp hb)) with ⟨v, hv2⟩
      simp [hv2]
  · rw [map_fst_filterMap_push]
    exact hperm.filterMap _

/-- C2 witness: a one-box scene whose box the diagonal ray hits. -/
theorem spec_c2_witness :
    (tree_filter noHit (CoveringTree.mk unitBoxP2 none none) [] diagRay).length
        = [unitBoxP2].length ∧
    ((tree_filter noHit (CoveringTree.mk unitBoxP2 none none) []
        diagRay).map Prod.fst).Perm ([unitBoxP2].filterMap fun b => b.boxed) :=
  spec_c2 noHit diagRay [unitBoxP2] (by simp) (by decide) (by decide)
    (by with_unfolding_all decide) (CoveringTree.mk unitBoxP2 none none)
    [BoundingBox.defaultBB] (by simp [make_coveringtree])

/-- C3: in every tree the builder returns, every node with a child stores
exactly `make_all_covering` of the leaf boxes of its subtree and carries no
payload (`treeInv`), while the leaf nodes (childless by construction) hold
precisely the input boxes, payloads included, one each (the permutation). -/
theorem spec_c3 {α : Type} [DecidableEq α] (boxes : List (BoundingBox α))
    (hne : boxes ≠ []) (t : CoveringTree α) (rest : List (BoundingBox α))
    (hmk : make_coveringtree boxes = some (t, rest)) :
    treeInv t = true ∧ (leafBoxes t).Perm boxes := by
  obtain ⟨t2, rest2, heq, hperm, -, hinv, -⟩ := make_coveringtree_spec boxes hne
  rw [hmk] at heq
  obtain ⟨ht2, -⟩ := Prod.mk.injEq t rest t2 rest2 |>.mp (Option.some.inj heq)
  subst ht2
  exact ⟨hinv, hperm⟩

/-- C3 witness: the invariant on the tree built from one box. -/
theorem spec_c3_witness :
    treeInv (CoveringTree.mk unitBoxP3 none none) = true ∧
    (leafBoxes (CoveringTree.mk unitBoxP3 none none)).Perm [unitBoxP3] :=
  spec_c3 [unitBoxP3] (by simp) (CoveringTree.mk unitBoxP3 none none)
    [BoundingBox.defaultBB] (by simp [make_coveringtree])

/-- C4 counterexample: on the single box `[1,2]^3` the fold returns the
axis-0 interval `[0,2]`, not the claimed min/max of the boxes' endpoints
alone (`[1,2]`): the fold's identity is the zero-size box at the origin,
whose endpoints enter the min/max. -/
theorem spec_c4_counterexample :
    (make_all_covering [cubeOneTwo]).dims.get 0 = ⟨0, 2⟩ ∧
    ((make_all_covering [cubeOneTwo]).dims.get 0).start ≠
      (cubeOneTwo.dims.get 0).start := by
  constructor <;> decide

/-- C4 (amended): `make_all_covering` returns, on each axis, the interval
from `min` folded over the boxes' starts seeded with `0` to `max` folded
over the boxes' ends seeded with `0` — the correct union of the boxes
together with the zero-size identity box at the origin — and carries no
payload.  It equals the union of the boxes alone only when that union
contains the origin. -/
theorem spec_c4_amended {α : Type} (boxes : List (BoundingBox α)) (i : Fin 3) :
    (make_all_covering boxes).dims.get i =
      ⟨boxes.foldl (fun s b => min s ((b.dims.get i).start)) 0,
       boxes.foldl (fun s b => max s ((b.dims.get i).endp)) 0⟩ ∧
    (make_all_covering boxes).boxed = none := by
  refine ⟨?_, make_all_covering_boxed boxes⟩
  rw [← make_all_covering_start boxes i, ← make_all_covering_endp boxes i]

/-- C5: on a non-empty slice the builder terminates without panicking
(its recursion halves a non-empty slice, modelled by the `some` result) and
returns a tree with exactly N leaves, no payload on any node with a child,
and depth at most `⌈log2 N⌉ + 1`. -/
theorem spec_c5 {α : Type} [DecidableEq α] (boxes : List (BoundingBox α))
    (hne : boxes ≠ []) :
    ∃ t rest, make_coveringtree boxes = some (t, rest) ∧
      (leafBoxes t).length = boxes.length ∧
      noPayloadInternal t = true ∧
      depth t ≤ Nat.clog 2 boxes.length + 1 := by
  obtain ⟨t, rest, heq, hperm, -, hinv, hdep⟩ := make_coveringtree_spec boxes hne
  exact ⟨t, rest, heq, hperm.length_eq, treeInv_noPayloadInternal t hinv, hdep⟩

/-- C5 witness: the builder on one box. -/
theorem spec_c5_witness :
    ∃ t rest, make_coveringtree [unitBox] = some (t, rest) ∧
      (leafBoxes t).length = [unitBox].length ∧
      noPayloadInternal t = true ∧
      depth t ≤ Nat.clog 2 [unitBox].length + 1 :=
  spec_c5 [unitBox] (by simp)

/-- C6: the traversal returns the output unchanged when the node's cover
fails the slab test; when it passes, it appends one pair (payload, exact
intersect result) exactly when the cover holds a payload — whatever the
exact test returns — and then descends into the left child if present and
then the right child if present. -/
theorem spec_c6 {α : Type} (intersect : α → Ray → Option ℚ)
    (t : CoveringTree α) (acc : List (α × Option ℚ)) (ray : Ray) :
    (t.cover.check_intersection ray = false →
      tree_filter intersect t acc ray = acc) ∧
    (t.cover.check_intersection ray = true →
      tree_filter intersect t acc ray =
        childStep intersect t.right
          (childStep intersect t.left
            (acc ++ leafPush intersect t.cover ray) ray) ray) := by
  obtain ⟨cov, l, r⟩ := t
  constructor
  · intro h
    cases l <;> cases r <;>
      simp_all [tree_filter, CoveringTree.cover]
  · intro h
    cases l <;> cases r <;> cases hb : cov.boxed <;>
      simp_all [tree_filter, childStep, leafPush, CoveringTree.cover,
        CoveringTree.left, CoveringTree.right]

/-- C6 witness: the prune branch on a one-leaf tree and a missing ray. -/
theorem spec_c6_witness :
    tree_filter noHit (CoveringTree.mk unitBoxP2 none none) [] missRay = [] :=
  (spec_c6 noHit (CoveringTree.mk unitBoxP2 none none) [] missRay).1
    (by with_unfolding_all decide)

/-- C7 counterexample: building from the single box `[1,2]^3` (payload 7)
leaves the slice holding `BoundingBox::default()` — `std::mem::take` moved
the box into the tree — so the slice contents after the call are not a
permutation of the input boxes. -/
theorem spec_c7_counterexample :
    make_coveringtree [cubeOneTwoP7] =
      some (CoveringTree.mk cubeOneTwoP7 none none, [BoundingBox.defaultBB]) ∧
    ¬ ([BoundingBox.defaultBB].Perm [cubeOneTwoP7]) := by
  constructor
  · simp [make_coveringtree]
  · intro h
    exact absurd (List.perm_singleton.mp h) (by decide)

/-- C7 (amended): the builder mutates the caller's slice beyond in-place
sorting: every element is destructively taken, so when the call returns
the slice holds exactly `boxes.length` copies of the default (zero-size,
payload-free) box. -/
theorem spec_c7_amended {α : Type} [DecidableEq α]
    (boxes : List (BoundingBox α)) (t : CoveringTree α)
    (rest : List (BoundingBox α))
    (hmk : make_coveringtree boxes = some (t, rest)) :
    rest = List.replicate boxes.length BoundingBox.defaultBB := by
  have hne : boxes ≠ [] := by
    intro h
    subst h
    simp [make_coveringtree] at hmk
  obtain ⟨t2, rest2, heq, -, hrest, -, -⟩ := make_coveringtree_spec boxes hne
  rw [hmk] at heq
  obtain ⟨-, hr2⟩ := Prod.mk.injEq t rest t2 rest2 |>.mp (Option.some.inj heq)
  exact hr2.trans hrest

/-- C7 witness: the amended claim applied to the counterexample input. -/
theorem spec_c7_witness :
    [(BoundingBox.defaultBB : BoundingBox ℕ)] =
      List.replicate [cubeOneTwoP7].length BoundingBox.defaultBB :=
  spec_c7_amended [cubeOneTwoP7] (CoveringTree.mk cubeOneTwoP7 none none)
    [BoundingBox.defaultBB] (by simp [make_coveringtree])

/-- C8: `longest_axis` follows exactly the deterministic tie-break — axis 0
iff strictly larger than both others, else axis 1 iff strictly larger than
axis 2, else axis 2 — and in particular sizes `(1,1,1)` give axis 2 and
sizes `(1,2,1)` give axis 1. -/
theorem spec_c8 :
    (∀ {α : Type} (b : BoundingBox α),
      b.longest_axis =
        if (b.dims.get 0).size > (b.dims.get 1).size ∧
            (b.dims.get 0).size > (b.dims.get 2).size then 0
        else if (b.dims.get 1).size > (b.dims.get 2).size then 1
        else 2) ∧
    boxSizes111.longest_axis = 2 ∧ boxSizes121.longest_axis = 1 := by
  refine ⟨?_, by with_unfolding_all decide, by with_unfolding_all decide⟩
  intro α b
  rfl

/-- C9: when every direction component is nonzero, the slab test gives the
same answer for a ray and for the ray with negated direction from the same
origin: negation reflects each normalized per-axis time interval about
zero, which preserves whether the triple intersection is non-empty. -/
theorem spec_c9 {α : Type} (b : BoundingBox α) (ray : Ray)
    (h : ∀ i : Fin 3, ray.dir.get i ≠ 0) :
    b.check_intersection (negRay ray) = b.check_intersection ray := by
  rw [Bool.eq_iff_iff, check_intersection_iff, check_intersection_iff,
    axisTimes_negRay b ray 0 (h 0), axisTimes_negRay b ray 1 (h 1),
    axisTimes_negRay b ray 2 (h 2)]
  dsimp only
  rw [max_neg_neg, max_neg_neg, min_neg_neg, min_neg_neg, neg_lt_neg_iff]

/-- C9 witness: the unit box and the all-ones direction. -/
theorem spec_c9_witness :
    unitBox.check_intersection (negRay diagRay)
      = unitBox.check_intersection diagRay :=
  spec_c9 unitBox diagRay (by decide)

/-- C10 counterexample: the interval `[+inf, +inf]` has non-NaN endpoints,
yet its size is `inf - inf = NaN`, so the comparator returns `None` and the
`unwrap` in the sort comparator would panic: non-NaN endpoints do not make
every size comparison defined. -/
theorem spec_c10_counterexample :
    FModel.infInterval.nonNanEndpoints = true ∧
    FModel.FInterval.size_pcmp FModel.infInterval FModel.infInterval = none :=
  ⟨rfl, rfl⟩

/-- C10 (amended): whenever the two compared intervals have non-NaN sizes
(equivalently: non-NaN endpoints and no interval with both endpoints the
same signed infinity), `size_partial_cmp` is `Some` and the `unwrap` in the
sort comparator used by `sort_on_index` cannot panic. -/
theorem spec_c10_amended (i1 i2 : FModel.FInterval)
    (h1 : i1.size ≠ FModel.F64.nan) (h2 : i2.size ≠ FModel.F64.nan) :
    (i1.size_pcmp i2).isSome = true := by
  unfold FModel.FInterval.size_pcmp
  cases hs1 : i1.size <;> cases hs2 : i2.size <;>
    simp_all [FModel.F64.pcmp]

/-- C10 witness: two finite unit intervals compare successfully. -/
theorem spec_c10_witness :
    (FModel.finiteUnit.size_pcmp FModel.finiteUnit).isSome = true :=
  spec_c10_amended FModel.finiteUnit FModel.finiteUnit (by decide) (by decide)

end Raytracer
